import Mathlib

/-!
Verification of the word-frequency text-processing program
(`text_processor.py` / `main.py`).

The program counts word frequencies over text files using three execution
strategies (sequential, threaded, multiprocess) and computes statistics
(total words, unique words, frequency map, top-10 list).

Python dictionaries are modelled as association lists (`Counter`) with
insertion-order semantics: assigning to an existing key updates its value
in place, assigning to a fresh key appends it at the end.  This mirrors
CPython's ordered dicts exactly, so list equality of two `Counter`s models
byte-identical dictionaries.

Wall-clock timing fields (`processing_time`, `total_time`,
`computation_time`) are dropped from the model: they are real-time
measurements, and no claim is about them.
-/

/-- A Python dict from word to count, in insertion order
(`counter = {}` builds one entry per distinct key). -/
abbrev Counter := List (String × Nat)

/-- `counter.get(word, 0)`: value of the first entry with key `word`, else 0. -/
def getD : Counter → String → Nat
  | [], _ => 0
  | (w', n) :: rest, w => if w' = w then n else getD rest w

/-- `counter[word] = v`: replace the value of an existing key in place,
otherwise append the new key at the end (CPython dict assignment). -/
def dictSet : Counter → String → Nat → Counter
  | [], w, v => [(w, v)]
  | (w', n) :: rest, w, v =>
    if w' = w then (w', v) :: rest else (w', n) :: dictSet rest w v

/-- `count_words_simple` (text_processor.py lines 8-13): build a frequency
dict by a single left-to-right pass, `counter[word] = counter.get(word, 0) + 1`. -/
def count_words_simple (words : List String) : Counter :=
  words.foldl (fun counter word => dictSet counter word (getD counter word + 1)) []

/-- `merge_counters` (text_processor.py lines 15-21): start from an empty
dict and fold every entry of every counter in, adding counts per key. -/
def merge_counters (counter_list : List Counter) : Counter :=
  counter_list.foldl
    (fun result counter =>
      counter.foldl (fun result p => dictSet result p.1 (getD result p.1 + p.2)) result)
    []

/-- Stable insertion of a pair into a list already sorted by count descending:
the pair goes before the first element with a strictly smaller count, hence
after all earlier elements with an equal count.  Folding this left-to-right
over a list is exactly Python's stable
`sorted(items, key=lambda x: x[1], reverse=True)`. -/
def insertDesc (p : String × Nat) : List (String × Nat) → List (String × Nat)
  | [] => [p]
  | q :: rest => if q.2 < p.2 then p :: q :: rest else q :: insertDesc p rest

/-- `get_top_words` (text_processor.py lines 23-26): stable sort of the
dict items by count descending, then take the first `n`. -/
def get_top_words (counter : Counter) (n : Nat) : List (String × Nat) :=
  let sorted_words := counter.foldl (fun acc p => insertDesc p acc) []
  sorted_words.take n

/-- `string.punctuation`: the 32 ASCII punctuation characters, i.e. the
printable ASCII characters that are neither alphanumeric nor the space:
codes 33-47, 58-64, 91-96 and 123-126. -/
def isPunct (c : Char) : Bool :=
  let n := c.toNat
  (33 ≤ n && n ≤ 47) || (58 ≤ n && n ≤ 64) || (91 ≤ n && n ≤ 96) || (123 ≤ n && n ≤ 126)

/-- ASCII whitespace for Python `str.split()` with no argument:
space, tab, newline, carriage return, vertical tab (11), form feed (12). -/
def pyIsSpace (c : Char) : Bool :=
  c = ' ' || c = '\t' || c = '\n' || c = '\r' || c.toNat = 11 || c.toNat = 12

/-- Worker loop of Python `str.split()`: accumulate the current token in
reverse, emit it at each whitespace run, never emit empty tokens. -/
def pySplitAux : List Char → List Char → List (List Char)
  | [], cur => if cur.isEmpty then [] else [cur.reverse]
  | c :: rest, cur =>
    if pyIsSpace c then
      if cur.isEmpty then pySplitAux rest []
      else cur.reverse :: pySplitAux rest []
    else pySplitAux rest (c :: cur)

/-- Python `str.split()` with no separator: split on runs of whitespace,
dropping empty tokens. -/
def pySplit (cs : List Char) : List (List Char) := pySplit.go cs
where go (cs : List Char) : List (List Char) := pySplitAux cs []

/-- Python `str.isalpha()` restricted to ASCII input: non-empty and all
characters alphabetic. -/
def pyIsAlpha (w : List Char) : Bool := !w.isEmpty && w.all (fun c => c.isAlpha)

/-- The whitespace tokens of the lowered, punctuation-stripped text, in
their order of appearance in the source text (before the `isalpha` filter
of line 41 / line 74). -/
def sourceTokens (text : String) : List String :=
  let lowered := text.toList.map Char.toLower
  let cleaned := lowered.filter (fun c => !isPunct c)
  (pySplit cleaned).map List.asString

/-- The pure tokenization pipeline inside `read_and_clean_file` /
`read_and_clean_file_standalone` (text_processor.py lines 33-41):
`text.lower()`, `translate` deleting `string.punctuation`, `split()`,
keep only `word.isalpha()` tokens. -/
def clean_text_words (text : String) : List String :=
  let lowered := text.toList.map Char.toLower
  let cleaned := lowered.filter (fun c => !isPunct c)
  ((pySplit cleaned).filter pyIsAlpha).map List.asString

/-- `TextProcessor.read_and_clean_file` (text_processor.py lines 62-83).
The file system is modelled as a snapshot map from path to the word list
the tokenizer would produce; `none` models any exception raised while
opening or reading the file.  The `except` branch returns the same path
with an empty word list.  The elapsed-time component of the Python triple
is dropped. -/
def read_and_clean_file (snapshot : String → Option (List String))
    (filepath : String) : String × List String :=
  match snapshot filepath with
  | some words => (filepath, words)
  | none => (filepath, [])

/-- `TextProcessor.process_with_sequential` (text_processor.py lines
167-195): iterate the discovered file paths in order, extending
`all_words` with each file's words.  Discovery (`os.listdir` filtered to
`.txt`) is modelled by the `filepaths` parameter. -/
def process_with_sequential (snapshot : String → Option (List String))
    (filepaths : List String) : List String :=
  filepaths.foldl (fun all_words fp => all_words ++ (read_and_clean_file snapshot fp).2) []

/-- One slot write of a threading worker (text_processor.py lines 132-135):
under the lock, store this worker's result at its own index. -/
def worker_write (results : List (Option (String × List String)))
    (ev : Nat × (String × List String)) : List (Option (String × List String)) :=
  results.set ev.1 (some ev.2)

/-- The write events the threading workers perform: worker `i` computes
`read_and_clean_file` on file `i` and writes the result at index `i`.
Only the order in which the lock is acquired varies between runs. -/
def threadEvents (snapshot : String → Option (List String))
    (filepaths : List String) : List (Nat × (String × List String)) :=
  (filepaths.map (read_and_clean_file snapshot)).enum

/-- The collection step of `process_with_threading` (text_processor.py
lines 151-155): `if result:` skips `None` slots, otherwise the slot's
words extend `all_words`. -/
def collect_slot (all_words : List String)
    (r : Option (String × List String)) : List String :=
  match r with
  | some (_, words) => all_words ++ words
  | none => all_words

/-- `TextProcessor.process_with_threading` (text_processor.py lines
116-165): pre-size `results` to `[None] * len(filepaths)`, let the workers
write their slots in some schedule order, then collect the non-`None`
slots in index order, extending `all_words` with each file's words. -/
def process_with_threading (snapshot : String → Option (List String))
    (filepaths : List String)
    (schedule : List (Nat × (String × List String))) : List String :=
  let results := schedule.foldl worker_write (List.replicate filepaths.length none)
  results.foldl collect_slot []

/-- `TextProcessor.process_with_multiprocessing` (text_processor.py lines
85-114): `pool.map` returns the per-file results in task order; extend
`all_words` with each file's words. -/
def process_with_multiprocessing (snapshot : String → Option (List String))
    (filepaths : List String) : List String :=
  (filepaths.map (read_and_clean_file snapshot)).foldl
    (fun all_words r => all_words ++ r.2) []

/-- Sum of the values of a counter, `sum(counter.values())`. -/
def sumValues (c : Counter) : Nat := (c.map Prod.snd).sum

/-- The `Statistics` record returned by the statistics methods
(text_processor.py lines 208-214), without the wall-clock
`computation_time` field. -/
structure Statistics where
  total_words : Nat
  unique_words : Nat
  frequencies : Counter
  top_10 : List (String × Nat)
deriving DecidableEq

/-- `TextProcessor.compute_word_statistics_simple` (text_processor.py lines
197-214): single-pass count of `words`; `method` is only printed and never
used in the computation. -/
def compute_word_statistics_simple (words : List String) (method : String) : Statistics :=
  let _ := method
  let total_counter := count_words_simple words
  { total_words := sumValues total_counter
    unique_words := total_counter.length
    frequencies := total_counter
    top_10 := get_top_words total_counter 10 }

/-- The chunking loop of `_compute_stats_threading_simple` /
`_compute_stats_multiprocessing_simple` (text_processor.py lines 225-231 /
273-279) for a positive `chunk_size`: while strictly more than
`chunk_size` words remain, cut a chunk of `chunk_size`; the last chunk
takes all remaining words. -/
def chunkList (chunk_size : Nat) (words : List String) : List (List String) :=
  if h : 0 < chunk_size ∧ chunk_size < words.length then
    words.take chunk_size :: chunkList chunk_size (words.drop chunk_size)
  else
    [words]
termination_by words.length
decreasing_by
  simp only [List.length_drop]
  omega

/-- `TextProcessor._compute_stats_threading_simple` (text_processor.py
lines 216-262): `chunk_size = len(words) // 4`; when `chunk_size` is 0 the
loop header `range(0, len(words), chunk_size)` raises `ValueError`
(modelled as `none`).  Otherwise each chunk is counted (each worker writes
its counter into its own slot, so after the join the slot list is the
per-chunk counters in chunk order), the counters are merged, and the
statistics record is built. -/
def _compute_stats_threading_simple (words : List String) : Option Statistics :=
  let chunk_size := words.length / 4
  if chunk_size = 0 then none
  else
    let word_chunks := chunkList chunk_size words
    let results := word_chunks.map count_words_simple
    let total_counter := merge_counters results
    some { total_words := sumValues total_counter
           unique_words := total_counter.length
           frequencies := total_counter
           top_10 := get_top_words total_counter 10 }

/-- `TextProcessor._compute_stats_multiprocessing_simple`
(text_processor.py lines 264-296): identical chunking with
`chunk_size = len(words) // 4` (again `ValueError`, modelled `none`, when
it is 0), per-chunk counting via `pool.map` (task order), merge, and the
same statistics record. -/
def _compute_stats_multiprocessing_simple (words : List String) : Option Statistics :=
  let chunk_size := words.length / 4
  if chunk_size = 0 then none
  else
    let word_chunks := chunkList chunk_size words
    let counters := word_chunks.map count_words_simple
    let total_counter := merge_counters counters
    some { total_words := sumValues total_counter
           unique_words := total_counter.length
           frequencies := total_counter
           top_10 := get_top_words total_counter 10 }

/-! Proof-side helper definitions.  `bump`, `countFrom` and `addAll` are
definitionally equal reshapings of the source folds above. -/

/-- Add `k` to the count of `word`: the dict update both
`count_words_simple` and `merge_counters` perform. -/
def bump (counter : Counter) (word : String) (k : Nat) : Counter :=
  dictSet counter word (getD counter word + k)

/-- The counting fold of `count_words_simple` started from an arbitrary
accumulator. -/
def countFrom (r : Counter) (words : List String) : Counter :=
  words.foldl (fun counter word => bump counter word 1) r

/-- The inner fold of `merge_counters`: add every entry of `c` into `r`. -/
def addAll (r : Counter) (c : Counter) : Counter :=
  c.foldl (fun result p => bump result p.1 p.2) r

/-- The keys of a counter, in dict order. -/
def keysOf (c : Counter) : List String := c.map Prod.fst

/-- Total count carried by key `w` across all entries of `c` (equals
`getD c w` when the keys of `c` are distinct). -/
def sumVal : Counter → String → Nat
  | [], _ => 0
  | (w', n) :: rest, w => (if w' = w then n else 0) + sumVal rest w

theorem count_words_simple_eq (words : List String) :
    count_words_simple words = countFrom [] words := rfl

theorem merge_counters_eq (cs : List Counter) :
    merge_counters cs = cs.foldl addAll [] := rfl

theorem bump_nil (w : String) (k : Nat) : bump [] w k = [(w, k)] := by
  simp [bump, dictSet, getD]

theorem bump_cons (w' : String) (n : Nat) (rest : Counter) (w : String) (k : Nat) :
    bump ((w', n) :: rest) w k =
      if w' = w then (w', n + k) :: rest else (w', n) :: bump rest w k := by
  by_cases h : w' = w <;> simp [bump, dictSet, getD, h]

theorem getD_bump (c : Counter) (w x : String) (k : Nat) :
    getD (bump c w k) x = if w = x then getD c x + k else getD c x := by
  induction c with
  | nil =>
    rw [bump_nil]
    by_cases h : w = x
    · subst h
      simp [getD]
    · simp [getD, h]
  | cons p rest ih =>
    obtain ⟨w', n⟩ := p
    rw [bump_cons]
    by_cases h1 : w' = w
    · subst h1
      by_cases h2 : w' = x
      · subst h2
        simp [getD]
      · simp [getD, h2]
    · by_cases h2 : w' = x
      · subst h2
        have h3 : ¬ w = w' := fun h => h1 h.symm
        simp [getD, h1, h3]
      · simp [getD, h1, h2, ih]

theorem keysOf_bump (c : Counter) (w : String) (k : Nat) :
    keysOf (bump c w k) =
      if w ∈ keysOf c then keysOf c else keysOf c ++ [w] := by
  induction c with
  | nil => simp [bump_nil, keysOf]
  | cons p rest ih =>
    obtain ⟨w', n⟩ := p
    rw [bump_cons]
    by_cases h1 : w' = w
    · subst h1
      simp [keysOf]
    · have hne : ¬ w = w' := fun h => h1 h.symm
      simp only [keysOf, List.map_cons] at ih ⊢
      simp only [h1, if_false, List.map_cons, ih]
      by_cases h2 : w ∈ List.map Prod.fst rest <;> simp [hne, h2]

theorem mem_keysOf_bump (c : Counter) (w x : String) (k : Nat) :
    x ∈ keysOf (bump c w k) ↔ x = w ∨ x ∈ keysOf c := by
  rw [keysOf_bump]
  by_cases h : w ∈ keysOf c
  · simp only [h, if_true]
    constructor
    · exact Or.inr
    · rintro (rfl | hx)
      · exact h
      · exact hx
  · simp only [h, if_false, List.mem_append, List.mem_singleton]
    exact or_comm

theorem nodup_keysOf_bump (c : Counter) (w : String) (k : Nat)
    (h : (keysOf c).Nodup) : (keysOf (bump c w k)).Nodup := by
  rw [keysOf_bump]
  by_cases hm : w ∈ keysOf c
  · simpa [hm] using h
  · simp only [hm, if_false]
    exact List.Nodup.append h (List.nodup_singleton w) (by simpa using hm)

theorem bump_bump_same (c : Counter) (w : String) (a b : Nat) :
    bump (bump c w a) w b = bump c w (a + b) := by
  induction c with
  | nil => simp [bump_nil, bump_cons, Nat.add_assoc]
  | cons p rest ih =>
    obtain ⟨w', n⟩ := p
    by_cases h : w' = w <;> simp [bump_cons, h, ih, Nat.add_assoc]

theorem bump_comm (c : Counter) (w w' : String) (k k' : Nat) (hmem : w ∈ keysOf c) :
    bump (bump c w k) w' k' = bump (bump c w' k') w k := by
  by_cases hww : w' = w
  · subst hww
    rw [bump_bump_same, bump_bump_same, Nat.add_comm]
  · induction c with
    | nil => simp [keysOf] at hmem
    | cons p rest ih =>
      obtain ⟨w₁, n⟩ := p
      by_cases h1 : w₁ = w
      · subst h1
        have h2 : ¬ w₁ = w' := fun h => hww h.symm
        simp [bump_cons, h2, hww]
      · have hmem' : w ∈ keysOf rest := by
          simp [keysOf] at hmem
          rcases hmem with h | h
          · exact absurd h.symm h1
          · simpa [keysOf] using h
        by_cases h2 : w₁ = w'
        · subst h2
          simp [bump_cons, h1]
        · simp [bump_cons, h1, h2, ih hmem']

theorem addAll_nil (r : Counter) : addAll r [] = r := rfl

theorem addAll_cons (r : Counter) (w : String) (n : Nat) (rest : Counter) :
    addAll r ((w, n) :: rest) = addAll (bump r w n) rest := rfl

theorem addAll_bump_mem (c : Counter) (r : Counter) (w : String) (k : Nat)
    (hmem : w ∈ keysOf r) :
    addAll (bump r w k) c = bump (addAll r c) w k := by
  induction c generalizing r with
  | nil => rfl
  | cons p rest ih =>
    obtain ⟨w₁, n₁⟩ := p
    rw [addAll_cons, addAll_cons]
    rw [bump_comm r w w₁ k n₁ hmem]
    exact ih (bump r w₁ n₁) ((mem_keysOf_bump r w₁ w n₁).mpr (Or.inr hmem))

theorem addAll_bump (c : Counter) (r : Counter) (w : String) (k : Nat) :
    addAll r (bump c w k) = bump (addAll r c) w k := by
  induction c generalizing r with
  | nil =>
    rw [bump_nil]
    rfl
  | cons p rest ih =>
    obtain ⟨w₁, n₁⟩ := p
    by_cases h1 : w₁ = w
    · subst h1
      have hb : bump ((w₁, n₁) :: rest) w₁ k = (w₁, n₁ + k) :: rest := by
        rw [bump_cons]
        simp
      rw [hb, addAll_cons, addAll_cons, ← bump_bump_same r w₁ n₁ k]
      exact addAll_bump_mem rest (bump r w₁ n₁) w₁ k
        ((mem_keysOf_bump r w₁ w₁ n₁).mpr (Or.inl rfl))
    · have hb : bump ((w₁, n₁) :: rest) w k = (w₁, n₁) :: bump rest w k := by
        rw [bump_cons]
        simp [h1]
      rw [hb, addAll_cons, addAll_cons]
      exact ih (bump r w₁ n₁)

theorem countFrom_append (r : Counter) (ws₁ ws₂ : List String) :
    countFrom r (ws₁ ++ ws₂) = countFrom (countFrom r ws₁) ws₂ :=
  List.foldl_append _ _ _ _

theorem addAll_count (ws : List String) (r : Counter) :
    addAll r (countFrom [] ws) = countFrom r ws := by
  induction ws using List.reverseRecOn generalizing r with
  | nil => rfl
  | append_singleton ws w ih =>
    rw [countFrom_append, countFrom_append]
    show addAll r (bump (countFrom [] ws) w 1) = bump (countFrom r ws) w 1
    rw [addAll_bump, ih]

theorem foldl_addAll_count (chunks : List (List String)) (r : Counter) :
    (chunks.map count_words_simple).foldl addAll r = countFrom r chunks.flatten := by
  induction chunks generalizing r with
  | nil => rfl
  | cons c rest ih =>
    rw [List.map_cons, List.foldl_cons, List.flatten_cons, countFrom_append]
    rw [count_words_simple_eq, addAll_count]
    exact ih (countFrom r c)

/-- Merging per-chunk counts of any chunk decomposition rebuilds the direct
count of the concatenation, as identical ordered dicts. -/
theorem merge_count (chunks : List (List String)) :
    merge_counters (chunks.map count_words_simple) = count_words_simple chunks.flatten := by
  rw [merge_counters_eq, count_words_simple_eq, foldl_addAll_count]

theorem chunkList_flatten (chunk_size : Nat) (words : List String) :
    (chunkList chunk_size words).flatten = words := by
  rw [chunkList]
  split
  · rename_i h
    rw [List.flatten_cons, chunkList_flatten chunk_size (words.drop chunk_size)]
    exact List.take_append_drop chunk_size words
  · simp
termination_by words.length
decreasing_by
  simp only [List.length_drop]
  omega

theorem getD_addAll (c : Counter) (r : Counter) (x : String) :
    getD (addAll r c) x = getD r x + sumVal c x := by
  induction c generalizing r with
  | nil => simp [addAll_nil, sumVal]
  | cons p rest ih =>
    obtain ⟨w, n⟩ := p
    rw [addAll_cons, ih, getD_bump]
    by_cases h : w = x <;> simp [sumVal, h] <;> omega

theorem getD_nil (x : String) : getD [] x = 0 := rfl

theorem sumVal_eq_zero (c : Counter) (x : String) (h : x ∉ keysOf c) :
    sumVal c x = 0 := by
  induction c with
  | nil => rfl
  | cons p rest ih =>
    obtain ⟨w, n⟩ := p
    have hne : ¬ w = x := by
      intro he
      exact h (by simp [keysOf, he])
    have hx : x ∉ keysOf rest := fun hm => h (by simp [keysOf] at hm ⊢; exact Or.inr hm)
    simp [sumVal, hne, ih hx]

theorem sumVal_eq_getD (c : Counter) (x : String) (h : (keysOf c).Nodup) :
    sumVal c x = getD c x := by
  induction c with
  | nil => rfl
  | cons p rest ih =>
    obtain ⟨w, n⟩ := p
    simp only [keysOf, List.map_cons, List.nodup_cons] at h
    by_cases hwx : w = x
    · subst hwx
      simp [sumVal, getD, sumVal_eq_zero rest w h.1]
    · simp [sumVal, getD, hwx, ih h.2]

theorem sumValues_bump (c : Counter) (w : String) (k : Nat) :
    sumValues (bump c w k) = sumValues c + k := by
  induction c with
  | nil => simp [bump_nil, sumValues]
  | cons p rest ih =>
    obtain ⟨w', n⟩ := p
    by_cases h : w' = w <;> simp [bump_cons, h, sumValues, List.map_cons] at ih ⊢ <;> omega

theorem sumValues_countFrom (ws : List String) (r : Counter) :
    sumValues (countFrom r ws) = sumValues r + ws.length := by
  induction ws generalizing r with
  | nil => simp [countFrom]
  | cons w rest ih =>
    show sumValues (countFrom (bump r w 1) rest) = sumValues r + (rest.length + 1)
    rw [ih (bump r w 1), sumValues_bump]
    omega

theorem mem_keysOf_countFrom (ws : List String) (r : Counter) (x : String) :
    x ∈ keysOf (countFrom r ws) ↔ x ∈ keysOf r ∨ x ∈ ws := by
  induction ws generalizing r with
  | nil => simp [countFrom]
  | cons w rest ih =>
    show x ∈ keysOf (countFrom (bump r w 1) rest) ↔ _
    rw [ih (bump r w 1)]
    rw [mem_keysOf_bump]
    constructor
    · rintro ((rfl | h) | h)
      · exact Or.inr (List.mem_cons_self x rest)
      · exact Or.inl h
      · exact Or.inr (List.mem_cons_of_mem w h)
    · rintro (h | h)
      · exact Or.inl (Or.inr h)
      · rcases List.mem_cons.mp h with rfl | h
        · exact Or.inl (Or.inl rfl)
        · exact Or.inr h

theorem nodup_keysOf_countFrom (ws : List String) (r : Counter)
    (h : (keysOf r).Nodup) : (keysOf (countFrom r ws)).Nodup := by
  induction ws generalizing r with
  | nil => exact h
  | cons w rest ih =>
    exact ih (bump r w 1) (nodup_keysOf_bump r w 1 h)

theorem nodup_keysOf_count (ws : List String) :
    (keysOf (count_words_simple ws)).Nodup := by
  rw [count_words_simple_eq]
  exact nodup_keysOf_countFrom ws [] List.nodup_nil

/-- The number of entries of a direct count is the number of distinct
words of the input. -/
theorem length_count_words_simple (ws : List String) :
    (count_words_simple ws).length = ws.toFinset.card := by
  have hkeys : (count_words_simple ws).length = (keysOf (count_words_simple ws)).length := by
    simp [keysOf]
  rw [hkeys, ← List.toFinset_card_of_nodup (nodup_keysOf_count ws)]
  congr 1
  ext x
  simp only [List.mem_toFinset]
  rw [count_words_simple_eq, mem_keysOf_countFrom]
  simp [keysOf]

/-- The descending-count order used by `get_top_words`. -/
def countGE (p q : String × Nat) : Prop := q.2 ≤ p.2

theorem mem_insertDesc (p x : String × Nat) (l : List (String × Nat)) :
    x ∈ insertDesc p l ↔ x = p ∨ x ∈ l := by
  induction l with
  | nil => simp [insertDesc]
  | cons q rest ih =>
    by_cases h : q.2 < p.2
    · simp [insertDesc, h]
    · simp [insertDesc, h, ih]
      tauto

theorem length_insertDesc (p : String × Nat) (l : List (String × Nat)) :
    (insertDesc p l).length = l.length + 1 := by
  induction l with
  | nil => rfl
  | cons q rest ih =>
    by_cases h : q.2 < p.2 <;> simp [insertDesc, h, ih]

theorem sorted_insertDesc (p : String × Nat) (l : List (String × Nat))
    (h : List.Sorted countGE l) : List.Sorted countGE (insertDesc p l) := by
  induction l with
  | nil => simp [insertDesc, List.Sorted]
  | cons q rest ih =>
    rw [List.sorted_cons] at h
    by_cases hc : q.2 < p.2
    · rw [insertDesc, if_pos hc, List.sorted_cons]
      refine ⟨?_, ?_⟩
      · intro b hb
        rcases List.mem_cons.mp hb with rfl | hb
        · exact Nat.le_of_lt hc
        · exact Nat.le_trans (h.1 b hb) (Nat.le_of_lt hc)
      · rw [List.sorted_cons]
        exact h
    · rw [insertDesc, if_neg hc, List.sorted_cons]
      refine ⟨?_, ih h.2⟩
      intro b hb
      rcases (mem_insertDesc p b rest).mp hb with rfl | hb
      · exact Nat.le_of_not_lt hc
      · exact h.1 b hb

theorem sorted_foldl_insertDesc (c : List (String × Nat))
    (acc : List (String × Nat)) (h : List.Sorted countGE acc) :
    List.Sorted countGE (c.foldl (fun acc p => insertDesc p acc) acc) := by
  induction c generalizing acc with
  | nil => exact h
  | cons p rest ih =>
    exact ih (insertDesc p acc) (sorted_insertDesc p acc h)

theorem length_foldl_insertDesc (c : List (String × Nat))
    (acc : List (String × Nat)) :
    (c.foldl (fun acc p => insertDesc p acc) acc).length = acc.length + c.length := by
  induction c generalizing acc with
  | nil => rfl
  | cons p rest ih =>
    rw [List.foldl_cons, ih (insertDesc p acc), length_insertDesc, List.length_cons]
    omega

theorem get_top_words_sorted (counter : Counter) (n : Nat) :
    List.Sorted countGE (get_top_words counter n) :=
  List.Pairwise.sublist (List.take_sublist n _)
    (sorted_foldl_insertDesc counter [] (List.sorted_nil))

theorem get_top_words_length (counter : Counter) (n : Nat) :
    (get_top_words counter n).length = min n counter.length := by
  rw [get_top_words]
  simp only [List.length_take, length_foldl_insertDesc, List.length_nil, Nat.zero_add]

theorem enum_index_inj {α : Type} (l : List α) (x y : Nat × α)
    (hx : x ∈ l.enum) (hy : y ∈ l.enum) (h : x.1 = y.1) : x = y := by
  obtain ⟨i, a⟩ := x
  obtain ⟨j, b⟩ := y
  simp only at h
  subst h
  rw [List.mk_mem_enum_iff_getElem?] at hx hy
  rw [hx] at hy
  simp only [Option.some_inj] at hy
  rw [hy]

theorem worker_write_comm (x y : Nat × (String × List String))
    (hne : x.1 ≠ y.1) (z : List (Option (String × List String))) :
    worker_write (worker_write z x) y = worker_write (worker_write z y) x :=
  List.set_comm _ _ z hne

theorem foldl_worker_write_perm (snapshot : String → Option (List String))
    (filepaths : List String) (schedule : List (Nat × (String × List String)))
    (hs : schedule.Perm (threadEvents snapshot filepaths))
    (init : List (Option (String × List String))) :
    schedule.foldl worker_write init
      = (threadEvents snapshot filepaths).foldl worker_write init := by
  refine hs.foldl_eq' ?_ init
  intro x hx y hy z
  by_cases h : x.1 = y.1
  · have hxy : x = y :=
      enum_index_inj (filepaths.map (read_and_clean_file snapshot)) x y
        (hs.subset hx) (hs.subset hy) h
    rw [hxy]
  · exact worker_write_comm x y h z

theorem set_append_len {α : Type} (pre : List α) (s : α) (suf : List α) (v : α) :
    (pre ++ s :: suf).set pre.length v = pre ++ v :: suf := by
  induction pre with
  | nil => rfl
  | cons a rest ih =>
    simp only [List.cons_append, List.length_cons, List.set_cons_succ]
    rw [ih]

theorem foldl_worker_write_enumFrom (rs : List (String × List String)) :
    ∀ (pre suf : List (Option (String × List String))), suf.length = rs.length →
      (List.enumFrom pre.length rs).foldl worker_write (pre ++ suf)
        = pre ++ rs.map some := by
  induction rs with
  | nil =>
    intro pre suf h
    simp only [List.length_nil] at h
    rw [List.length_eq_zero] at h
    subst h
    simp [List.enumFrom]
  | cons r rest ih =>
    intro pre suf h
    cases suf with
    | nil => simp at h
    | cons s suf2 =>
      rw [List.enumFrom_cons, List.foldl_cons]
      have h1 : worker_write (pre ++ s :: suf2) (pre.length, r) = pre ++ some r :: suf2 :=
        set_append_len pre s suf2 (some r)
      rw [h1]
      have h2 : suf2.length = rest.length := by simpa using h
      have h3 := ih (pre ++ [some r]) suf2 h2
      simp only [List.length_append, List.length_singleton, List.append_assoc,
        List.singleton_append] at h3
      exact h3

theorem collect_map_some (rs : List (String × List String)) (acc : List String) :
    (rs.map some).foldl collect_slot acc
      = rs.foldl (fun all_words r => all_words ++ r.2) acc := by
  induction rs generalizing acc with
  | nil => rfl
  | cons r rest ih =>
    rw [List.map_cons, List.foldl_cons, List.foldl_cons]
    obtain ⟨fp, ws⟩ := r
    exact ih (acc ++ ws)

theorem process_with_threading_eq_sequential
    (snapshot : String → Option (List String)) (filepaths : List String)
    (schedule : List (Nat × (String × List String)))
    (hs : schedule.Perm (threadEvents snapshot filepaths)) :
    process_with_threading snapshot filepaths schedule
      = process_with_sequential snapshot filepaths := by
  rw [process_with_threading]
  rw [foldl_worker_write_perm snapshot filepaths schedule hs]
  have hcanon : (threadEvents snapshot filepaths).foldl worker_write
      (List.replicate filepaths.length none)
      = (filepaths.map (read_and_clean_file snapshot)).map some := by
    have h0 := foldl_worker_write_enumFrom (filepaths.map (read_and_clean_file snapshot))
      [] (List.replicate filepaths.length none) (by simp)
    simpa [threadEvents, List.enum] using h0
  rw [hcanon, collect_map_some]
  rw [process_with_sequential, List.foldl_map]

theorem process_with_multiprocessing_eq_sequential
    (snapshot : String → Option (List String)) (filepaths : List String) :
    process_with_multiprocessing snapshot filepaths
      = process_with_sequential snapshot filepaths := by
  rw [process_with_multiprocessing, process_with_sequential, List.foldl_map]

theorem foldl_append_eq_flatten {α : Type} (ls : List (List α)) (acc : List α) :
    ls.foldl (fun a l => a ++ l) acc = acc ++ ls.flatten := by
  induction ls generalizing acc with
  | nil => simp
  | cons l rest ih => simp [ih, List.append_assoc]

theorem process_with_sequential_eq_flatten
    (snapshot : String → Option (List String)) (filepaths : List String) :
    process_with_sequential snapshot filepaths
      = (filepaths.map (fun fp => (read_and_clean_file snapshot fp).2)).flatten := by
  rw [process_with_sequential,
    ← List.foldl_map (fun fp => (read_and_clean_file snapshot fp).2) (fun a l => a ++ l)
      filepaths ([] : List String),
    foldl_append_eq_flatten]
  rfl

/-! The claim theorems. -/

/-- C1 (counterexample to the claim as stated): for the one-word list
`["alpha"]`, `chunk_size = 1 // 4 = 0`, so the chunked strategy raises
`ValueError` (modelled `none`) and produces no FrequencyMap at all, while
the direct single-pass count produces full statistics — so the two
strategies do not produce identical results for *every* word list. -/
theorem C1_counterexample :
    _compute_stats_threading_simple ["alpha"] = none
  ∧ compute_word_statistics_simple ["alpha"] "threading"
      = { total_words := 1, unique_words := 1,
          frequencies := [("alpha", 1)], top_10 := [("alpha", 1)] } := by
  constructor
  · rfl
  · rfl

/-- C1 (amended): for every word list W with at least 4 words (so that
`chunk_size = len(W) // 4` is positive and the chunked loop is defined),
the direct single-pass count and the chunked count-then-merge strategy
produce identical FrequencyMaps and identical top-10 lists — indeed
identical whole Statistics records, for both the threading-chunked and
the multiprocessing-chunked variant. -/
theorem C1_chunked_eq_direct (W : List String) (m : String) (h : 4 ≤ W.length) :
    _compute_stats_threading_simple W = some (compute_word_statistics_simple W m)
  ∧ _compute_stats_multiprocessing_simple W = some (compute_word_statistics_simple W m) := by
  have hcs : ¬ (W.length / 4 = 0) := by omega
  have hmerge : merge_counters ((chunkList (W.length / 4) W).map count_words_simple)
      = count_words_simple W := by
    rw [merge_count, chunkList_flatten]
  constructor
  · simp only [_compute_stats_threading_simple, hcs, if_false, hmerge]
    rfl
  · simp only [_compute_stats_multiprocessing_simple, hcs, if_false, hmerge]
    rfl

theorem C1_chunked_eq_direct_witness :
    4 ≤ ["a", "b", "a", "c", "b"].length
  ∧ (_compute_stats_threading_simple ["a", "b", "a", "c", "b"]
        = some (compute_word_statistics_simple ["a", "b", "a", "c", "b"] "threading")
    ∧ _compute_stats_multiprocessing_simple ["a", "b", "a", "c", "b"]
        = some (compute_word_statistics_simple ["a", "b", "a", "c", "b"] "threading")) :=
  ⟨by decide, C1_chunked_eq_direct ["a", "b", "a", "c", "b"] "threading" (by decide)⟩

/-- C2: for every directory snapshot, discovered file list and every order
(schedule) in which the threading workers acquire the lock and write their
slots, all three strategies return exactly the same word list — so the
word multisets agree, no word is lost, duplicated or reordered, and each
strategy concatenates the per-file word lists in discovery order. -/
theorem C2_strategies_agree (snapshot : String → Option (List String))
    (filepaths : List String) (schedule : List (Nat × (String × List String)))
    (hs : schedule.Perm (threadEvents snapshot filepaths)) :
    process_with_threading snapshot filepaths schedule
        = process_with_sequential snapshot filepaths
  ∧ process_with_multiprocessing snapshot filepaths
        = process_with_sequential snapshot filepaths
  ∧ process_with_sequential snapshot filepaths
        = (filepaths.map (fun fp => (read_and_clean_file snapshot fp).2)).flatten :=
  ⟨process_with_threading_eq_sequential snapshot filepaths schedule hs,
   process_with_multiprocessing_eq_sequential snapshot filepaths,
   process_with_sequential_eq_flatten snapshot filepaths⟩

/-- A small two-file snapshot used to witness the strategy equivalence. -/
def sampleSnapshot : String → Option (List String) := fun fp =>
  if fp = "a.txt" then some ["x", "y"]
  else if fp = "b.txt" then some ["z"] else none

theorem C2_strategies_agree_witness :
    ([(1, ("b.txt", ["z"])), (0, ("a.txt", ["x", "y"]))].Perm
        (threadEvents sampleSnapshot ["a.txt", "b.txt"]))
  ∧ (process_with_threading sampleSnapshot ["a.txt", "b.txt"]
        [(1, ("b.txt", ["z"])), (0, ("a.txt", ["x", "y"]))]
        = process_with_sequential sampleSnapshot ["a.txt", "b.txt"]
    ∧ process_with_multiprocessing sampleSnapshot ["a.txt", "b.txt"]
        = process_with_sequential sampleSnapshot ["a.txt", "b.txt"]
    ∧ process_with_sequential sampleSnapshot ["a.txt", "b.txt"]
        = (["a.txt", "b.txt"].map
            (fun fp => (read_and_clean_file sampleSnapshot fp).2)).flatten) :=
  ⟨by decide,
   C2_strategies_agree sampleSnapshot ["a.txt", "b.txt"]
     [(1, ("b.txt", ["z"])), (0, ("a.txt", ["x", "y"]))] (by decide)⟩

/-- C3: the Statistics of `compute_word_statistics_simple` satisfy
`total_words = sum of the FrequencyMap values = length of the input`, and
`unique_words = number of keys of the FrequencyMap`. -/
theorem C3_statistics_invariants (W : List String) (m : String) :
    (compute_word_statistics_simple W m).total_words
        = sumValues (compute_word_statistics_simple W m).frequencies
  ∧ (compute_word_statistics_simple W m).total_words = W.length
  ∧ (compute_word_statistics_simple W m).unique_words
        = (keysOf (compute_word_statistics_simple W m).frequencies).length := by
  refine ⟨rfl, ?_, ?_⟩
  · show sumValues (count_words_simple W) = W.length
    rw [count_words_simple_eq, sumValues_countFrom]
    simp [sumValues]
  · show (count_words_simple W).length = (keysOf (count_words_simple W)).length
    simp [keysOf]

/-- C4: `merge_counters` is commutative up to map equality
(`merge([A, B])` and `merge([B, A])` agree at every key), per-key counts
add, and for every decomposition of a word list into consecutive chunks,
merging the per-chunk counts equals the direct count of the whole list
(the chunks cover every partition `W = C1 ++ ... ++ Ck` via
`W = chunks.flatten`). -/
theorem C4_merge_properties (A B : Counter) (chunks : List (List String)) (w : String)
    (hA : (keysOf A).Nodup) (hB : (keysOf B).Nodup) :
    getD (merge_counters [A, B]) w = getD (merge_counters [B, A]) w
  ∧ getD (merge_counters [A, B]) w = getD A w + getD B w
  ∧ merge_counters (chunks.map count_words_simple) = count_words_simple chunks.flatten := by
  have hAB : getD (merge_counters [A, B]) w = getD A w + getD B w := by
    rw [merge_counters_eq]
    show getD (addAll (addAll [] A) B) w = _
    rw [getD_addAll, getD_addAll, getD_nil, sumVal_eq_getD A w hA, sumVal_eq_getD B w hB]
    omega
  have hBA : getD (merge_counters [B, A]) w = getD B w + getD A w := by
    rw [merge_counters_eq]
    show getD (addAll (addAll [] B) A) w = _
    rw [getD_addAll, getD_addAll, getD_nil, sumVal_eq_getD B w hB, sumVal_eq_getD A w hA]
    omega
  exact ⟨by rw [hAB, hBA, Nat.add_comm], hAB, merge_count chunks⟩

theorem C4_merge_properties_witness :
    ((keysOf [("a", 1)]).Nodup ∧ (keysOf [("a", 2), ("b", 1)]).Nodup)
  ∧ (getD (merge_counters [[("a", 1)], [("a", 2), ("b", 1)]]) "a"
        = getD (merge_counters [[("a", 2), ("b", 1)], [("a", 1)]]) "a"
    ∧ getD (merge_counters [[("a", 1)], [("a", 2), ("b", 1)]]) "a"
        = getD [("a", 1)] "a" + getD [("a", 2), ("b", 1)] "a"
    ∧ merge_counters ([["a"], ["b", "a"]].map count_words_simple)
        = count_words_simple [["a"], ["b", "a"]].flatten) :=
  ⟨⟨by decide, by decide⟩,
   C4_merge_properties [("a", 1)] [("a", 2), ("b", 1)] [["a"], ["b", "a"]] "a"
     (by decide) (by decide)⟩

/-- C5: `get_top_words` on a direct count returns
`min n (number of distinct words)` pairs, sorted by count descending. -/
theorem C5_top_words_spec (W : List String) (n : Nat) :
    (get_top_words (count_words_simple W) n).length = min n W.toFinset.card
  ∧ List.Sorted countGE (get_top_words (count_words_simple W) n) := by
  refine ⟨?_, get_top_words_sorted _ n⟩
  rw [get_top_words_length, length_count_words_simple]

/-- C6: the tokenizer maps `"Hello, World! 123 foo-bar"` to exactly
`["hello", "world", "foobar"]`, and for every input text the output is a
sublist of the whitespace-token sequence of the normalized text, so the
surviving words keep their order of appearance in the source text. -/
theorem C6_tokenizer (text : String) :
    clean_text_words "Hello, World! 123 foo-bar" = ["hello", "world", "foobar"]
  ∧ (clean_text_words text).Sublist (sourceTokens text) := by
  constructor
  · rfl
  · simp only [clean_text_words, sourceTokens]
    exact List.Sublist.map List.asString (List.filter_sublist _)

/-- C7: if opening or reading the file raises (the snapshot has no entry
for the path), `read_and_clean_file` still returns normally, with the same
path and an empty word list — the failure never propagates. -/
theorem C7_read_error_absorbed (snapshot : String → Option (List String))
    (filepath : String) (h : snapshot filepath = none) :
    read_and_clean_file snapshot filepath = (filepath, []) := by
  simp [read_and_clean_file, h]

theorem C7_read_error_absorbed_witness :
    ((fun _ : String => (none : Option (List String))) "missing.txt" = none)
  ∧ read_and_clean_file (fun _ => none) "missing.txt" = ("missing.txt", []) :=
  ⟨rfl, C7_read_error_absorbed (fun _ => none) "missing.txt" rfl⟩

/-- C8: on an empty discovered file list every strategy returns the empty
word list (for the threaded strategy, under any schedule, which is
necessarily empty), and the statistics of the empty list are all zero or
empty. -/
theorem C8_empty_directory (snapshot : String → Option (List String)) (m : String)
    (schedule : List (Nat × (String × List String)))
    (hs : schedule.Perm (threadEvents snapshot [])) :
    process_with_sequential snapshot [] = []
  ∧ process_with_threading snapshot [] schedule = []
  ∧ process_with_multiprocessing snapshot [] = []
  ∧ compute_word_statistics_simple [] m
      = { total_words := 0, unique_words := 0, frequencies := [], top_10 := [] } := by
  have hnil : schedule = [] := hs.eq_nil
  subst hnil
  exact ⟨rfl, rfl, rfl, rfl⟩

theorem C8_empty_directory_witness :
    (([] : List (Nat × (String × List String))).Perm
        (threadEvents (fun _ => none) []))
  ∧ (process_with_sequential (fun _ => none) [] = []
    ∧ process_with_threading (fun _ => none) [] [] = []
    ∧ process_with_multiprocessing (fun _ => none) [] = []
    ∧ compute_word_statistics_simple [] "threading"
        = { total_words := 0, unique_words := 0, frequencies := [], top_10 := [] }) :=
  ⟨List.Perm.refl [], C8_empty_directory (fun _ => none) "threading" [] (List.Perm.refl [])⟩

/-- C9: the chunked statistics computations are defined (return `some`)
exactly when the input has at least 4 words; below that,
`chunk_size = len(W) // 4` is 0, `range(0, len(W), 0)` raises
`ValueError`, and no statistics are returned (modelled `none`). -/
theorem C9_chunked_requires_four (W : List String) :
    ((_compute_stats_threading_simple W).isSome = true ↔ 4 ≤ W.length)
  ∧ ((_compute_stats_multiprocessing_simple W).isSome = true ↔ 4 ≤ W.length) := by
  constructor
  · simp only [_compute_stats_threading_simple]
    by_cases h : W.length / 4 = 0
    · simp only [h, if_true, Option.isSome_none, Bool.false_eq_true, false_iff]
      omega
    · simp only [h, if_false, Option.isSome_some, true_iff]
      omega
  · simp only [_compute_stats_multiprocessing_simple]
    by_cases h : W.length / 4 = 0
    · simp only [h, if_true, Option.isSome_none, Bool.false_eq_true, false_iff]
      omega
    · simp only [h, if_false, Option.isSome_some, true_iff]
      omega

/-- C10: `compute_word_statistics_simple` ignores its `method` argument
entirely, so the "threading" and "multiprocessing" statistics computed in
`main` on the same words are equal by construction. -/
theorem C10_method_independent (W : List String) (m₁ m₂ : String) :
    compute_word_statistics_simple W m₁ = compute_word_statistics_simple W m₂ := rfl
